import Mathlib

/-
Shallow embedding of the token-stream rewrite pipeline of serve_md
(src/lib.rs and src/plugin.rs): the token data model, the Plugin
interface, the two reference plugins (Emoji, CollapsibleHeaders), the
window scanner `check_collection_with`, the range splicer
`rewrite_collection_with` and the orchestrator `process_commonmark_tokens`.

Conventions of the embedding:
- `usize` values are `Nat` (no arithmetic here comes close to overflow).
- pulldown_cmark's `Event<'input>` is the inductive `Event` below; variants
  the pipeline never inspects are collapsed into `Event.other k` / `Tag.otherTag k`
  (the `k` keeps distinct unknown variants distinct).  The ignored payload of
  `Tag::Heading` (fragment id, classes) is abstracted by a `Nat`.
- `CowStr` keeps its three variants since `CollapsibleHeaders::check_slice`
  pattern-matches on `CowStr::Borrowed` specifically; pulldown_cmark compares
  `CowStr`s by string value, which is `CowStr.str` here.
- Rust string code that works with byte indices (`str::find`, `char_indices`,
  byte-range slicing) is modelled over `List Char` with explicit UTF-8 byte
  offsets computed via `Char.utf8Size`, so byte positions agree with Rust.
- `&mut self` methods become state-passing functions `σ → … → result × σ`.
-/

namespace ServeMd

/-- pulldown_cmark's `HeadingLevel` (`H1 = 1` … `H6 = 6`). -/
inductive HeadingLevel where
  | h1 | h2 | h3 | h4 | h5 | h6
deriving DecidableEq

/-- `lvl as u8` on `HeadingLevel` (discriminants 1..6). -/
def HeadingLevel.toNat : HeadingLevel → Nat
  | .h1 => 1
  | .h2 => 2
  | .h3 => 3
  | .h4 => 4
  | .h5 => 5
  | .h6 => 6

/-- pulldown_cmark's `CowStr`: borrowed slice, boxed (owned) or inlined text. -/
inductive CowStr where
  | borrowed (s : String)
  | boxed (s : String)
  | inlined (s : String)
deriving DecidableEq

/-- The string value a `CowStr` dereferences to. -/
def CowStr.str : CowStr → String
  | .borrowed s => s
  | .boxed s => s
  | .inlined s => s

/-- The `Tag` variants the pipeline inspects or produces; all others are
`otherTag k`.  `attrs` abstracts the ignored `(Option<&str>, Vec<&str>)`
payload of `Tag::Heading`. -/
inductive Tag where
  | heading (lvl : HeadingLevel) (attrs : Nat)
  | emphasis
  | paragraph
  | otherTag (k : Nat)
deriving DecidableEq

/-- The `Event` variants the pipeline inspects or produces; all others are
`other k`. -/
inductive Event where
  | start (t : Tag)
  | end_ (t : Tag)
  | text (s : CowStr)
  | html (s : CowStr)
  | softBreak
  | rule
  | other (k : Nat)
deriving DecidableEq

/-- `core::ops::Range<usize>`: half-open interval `[start, stop)`
(the source's `end` field is `stop` here, `end` being a Lean keyword). -/
structure MRange where
  start : Nat
  stop : Nat
deriving DecidableEq

/-- `Range::len()` for `usize` ranges (0 when `stop ≤ start`). -/
def MRange.len (r : MRange) : Nat := r.stop - r.start

/-- `Range::contains(&x)` : `start ≤ x < stop`. -/
def MRange.containsPos (r : MRange) (x : Nat) : Prop := r.start ≤ x ∧ x < r.stop

instance (r : MRange) (x : Nat) : Decidable (r.containsPos x) := by
  unfold MRange.containsPos; infer_instance

/-- Models the external `emojis` crate's `get_by_shortcode`, which resolves
GitHub/gemoji shortcodes, on the shortcodes consulted in this development:
the ones exercised by the repository's own tests (`+1`, `smile`, `tada`,
`rocket`) plus the single-letter gemoji shortcode `b` (the B-button emoji),
returning the emoji glyph.  Every other candidate string appearing in this
development (`zz`, `text`, the empty string, …) is not a gemoji shortcode
and resolves to nothing in the crate as well.  The pipeline only ever
inspects whether the result is `some`/`none` and, in `replace_slice`, the
glyph string itself. -/
def get_by_shortcode (s : String) : Option String :=
  if s = "+1" then some "👍"
  else if s = "smile" then some "😄"
  else if s = "tada" then some "🎉"
  else if s = "rocket" then some "🚀"
  else if s = "b" then some "🅱️"
  else none

/-! ## UTF-8 byte-offset helpers (Rust `str` byte indexing over `List Char`) -/

/-- Byte length of a string given as chars (`str::len`). -/
def utf8Len (cs : List Char) : Nat := cs.foldl (fun n c => n + c.utf8Size) 0

/-- `char_indices()` with a starting byte offset: pairs `(byte index, char)`. -/
def charIndicesFrom (off : Nat) : List Char → List (Nat × Char)
  | [] => []
  | c :: cs => (off, c) :: charIndicesFrom (off + c.utf8Size) cs

/-- `s.char_indices()`. -/
def charIndices (cs : List Char) : List (Nat × Char) := charIndicesFrom 0 cs

/-- Drop `n` bytes from the front; `none` when `n` is not a char boundary
(where Rust slicing would fail). -/
def byteDrop : List Char → Nat → Option (List Char)
  | cs, 0 => some cs
  | [], _ + 1 => none
  | c :: cs, n + 1 =>
    if c.utf8Size ≤ n + 1 then byteDrop cs (n + 1 - c.utf8Size) else none

/-- Take `n` bytes from the front; `none` when `n` is not a char boundary. -/
def byteTake : List Char → Nat → Option (List Char)
  | _, 0 => some []
  | [], _ + 1 => none
  | c :: cs, n + 1 =>
    if c.utf8Size ≤ n + 1 then (byteTake cs (n + 1 - c.utf8Size)).map (c :: ·) else none

/-- `s.get(a..b)` on byte indices (`none` on invalid boundaries or `a > b`,
where Rust's `str::get` returns `None`). -/
def byteSlice (cs : List Char) (a b : Nat) : Option (List Char) :=
  if a ≤ b then (byteDrop cs a).bind (fun t => byteTake t (b - a)) else none

/-! ## The Plugin capability interface (src/plugin.rs, trait Plugin)

A `&mut self` method becomes `σ → … → result × σ`; `replace_slice` takes
`&self` and neither reference plugin reads its state there, so it is a plain
function of the matched slice. -/

structure Plugin (σ : Type) where
  window_size : Nat
  check_slice : σ → List (Nat × Event) → Option MRange × σ
  final_check : σ → Nat → Option MRange × σ
  replace_slice : List (Nat × Event) → List Event

/-! ## CollapsibleHeaders (src/plugin.rs lines 32-125) -/

/-- Plugin state/configuration: the open range in progress, the configured
minimum heading level (`u8`) and the literal marker text. -/
structure CollapsibleHeaders where
  range : Option MRange
  level : Nat
  text : String
deriving DecidableEq

/-- `CollapsibleHeaders::new(level, text)` (range starts out `None`). -/
def CollapsibleHeaders.new (level : Nat) (text : String) : CollapsibleHeaders :=
  ⟨none, level, text⟩

/-- The `if let Some(ref mut range) = self.range { range.end = idx; … }`
body shared by the second (shallow heading) and third (rule) arms of
`CollapsibleHeaders::check_slice`: close the open span at `idx`. -/
def closeVal (st : CollapsibleHeaders) (idx : Nat) :
    Option MRange × CollapsibleHeaders :=
  match st.range with
  | some range => (some ⟨range.start, idx⟩, { st with range := none })
  | none => (none, st)

/-- Body of the first arm of `CollapsibleHeaders::check_slice` on a window
`[(a, heading), (_, emphasis-open), (_, borrowed text v), (b, emphasis-close)]`:
the arm's body-`if` `(*lvl as u8) >= self.level && v == self.text`, closing
an open span at `b` or opening a new one `a..b`. -/
def arm1val (st : CollapsibleHeaders) (a b : Nat) (lvl : HeadingLevel)
    (v : String) : Option MRange × CollapsibleHeaders :=
  if st.level ≤ lvl.toNat ∧ v = st.text then
    match st.range with
    | some range => (some ⟨range.start, b⟩, { st with range := none })
    | none => (none, { st with range := some ⟨a, b⟩ })
  else (none, st)

/-- Body of the second arm of `CollapsibleHeaders::check_slice` (any window
headed by a heading-open that did not match the first arm's full pattern):
close the open span at `idx` when `lvl < HeadingLevel::H5` (hardcoded). -/
def arm2val (st : CollapsibleHeaders) (idx : Nat) (lvl : HeadingLevel) :
    Option MRange × CollapsibleHeaders :=
  if lvl.toNat < 5 then closeVal st idx else (none, st)

/-- `CollapsibleHeaders::check_slice`.  Mirrors the Rust `match` on the
window, arm for arm (arm bodies are the named definitions above): the first
arm is the full 4-token heading+emphasis-marker pattern — its level/marker
condition is the arm's *body*, an `if`, so a structurally matching window
failing it does nothing and does not reach the later arms; the second arm
fires on any other window headed by a heading-open; the third on a
`Rule`-headed window; anything else is a no-op. -/
def CollapsibleHeaders.check_slice (self : CollapsibleHeaders)
    (slice : List (Nat × Event)) : Option MRange × CollapsibleHeaders :=
  match slice with
  | [(a, .start (.heading lvl _)), (_, .start .emphasis),
     (_, .text (.borrowed v)), (b, .end_ .emphasis)] =>
    arm1val self a b lvl v
  | (idx, .start (.heading lvl _)) :: _ => arm2val self idx lvl
  | (idx, .rule) :: _ => closeVal self idx
  | _ => (none, self)

/-- `CollapsibleHeaders::final_check`: sets the open range's `end` to `pos`
and returns a clone of it (the state keeps the updated range — the source
does not clear it). -/
def CollapsibleHeaders.final_check (self : CollapsibleHeaders) (pos : Nat) :
    Option MRange × CollapsibleHeaders :=
  match self.range with
  | some range =>
    (some ⟨range.start, pos⟩, { self with range := some ⟨range.start, pos⟩ })
  | none => (none, self)

/-- `CollapsibleHeaders::replace_slice`: details/summary wrapper around the
three marker tokens (slice indices 1..3), then everything from slice index 5
on, verbatim. -/
def CollapsibleHeaders.replace_slice (slice : List (Nat × Event)) : List Event :=
  [Event.html (.borrowed "<details open>"), Event.softBreak,
   Event.html (.borrowed "<summary>")]
  ++ (match slice.get? 1, slice.get? 2, slice.get? 3 with
      | some (_, a), some (_, b), some (_, c) => [a, b, c]
      | _, _, _ => [])
  ++ [Event.html (.borrowed "</summary>")]
  ++ (slice.drop 5).map Prod.snd
  ++ [Event.html (.borrowed "</details>")]

/-! ## Emoji (src/plugin.rs lines 127-222) -/

/-- The substring strictly between the first `:` of the text and the next `:`
after it, or `none` when there are not two colons.  This is
`value.find(':')` followed by `value[start+1..].find(':')` and the byte
slice `value[(start+1)..=(start+end)]` of the source: since `:` is a
one-byte char at a char boundary, those byte indices delimit exactly the
chars between the two colons. -/
def betweenFirstColons (cs : List Char) : Option (List Char) :=
  match cs.dropWhile (fun c => ¬ (c = ':')) with
  | [] => none
  | _ :: rest =>
    if rest.any (fun c => c = ':') then
      some (rest.takeWhile (fun c => ¬ (c = ':')))
    else none

/-- `Emoji::check_slice`: on a single text token, succeed (with
`i..i+1`) iff the substring between the first colon pair resolves via
`get_by_shortcode`. -/
def Emoji.check_slice : List (Nat × Event) → Option MRange
  | [(i, .text value)] =>
    ((betweenFirstColons value.str.toList).bind
      fun inner => get_by_shortcode (String.mk inner)).map
      fun _ => ⟨i, i + 1⟩
  | _ => none

/-- The colon-pair scan loop of `Emoji::replace_slice` over `char_indices`:
state is the byte index of a pending opening colon (the source stores
`Some(start..0)` with `0` a placeholder end, so only the start matters);
a closing colon pushes `start..idx+1` when that span is longer than 2 bytes. -/
def emojiScan : List (Nat × Char) → Option Nat → List (Nat × Nat) →
    List (Nat × Nat) × Option Nat
  | [], pending, ranges => (ranges, pending)
  | (idx, c) :: rest, none, ranges =>
    if c = ':' then emojiScan rest (some idx) ranges
    else emojiScan rest none ranges
  | (idx, c) :: rest, some start, ranges =>
    if c = ':' then
      if idx + 1 - start > 2 then emojiScan rest none (ranges ++ [(start, idx + 1)])
      else emojiScan rest none ranges
    else emojiScan rest (some start) ranges

/-- All candidate `:name:` byte ranges of a text, in order: the scan loop
plus the trailing-incomplete-run check of the source (`incomplete.start..value.len()`
is pushed when longer than 2 bytes). -/
def emojiRanges (cs : List Char) : List (Nat × Nat) :=
  match emojiScan (charIndices cs) none [] with
  | (ranges, some start) =>
    if utf8Len cs - start > 2 then ranges ++ [(start, utf8Len cs)] else ranges
  | (ranges, none) => ranges

/-- Rust `str::replace`: replace every non-overlapping occurrence of `pat`,
left to right.  Fuel-structured so that it computes by kernel reduction;
`cs.length` fuel always suffices since every step consumes at least one char.
(The `pat = []` guard: the source never calls this with an empty pattern —
every pattern starts with a colon.) -/
def replaceAllFuel (pat rep : List Char) : Nat → List Char → List Char
  | 0, cs => cs
  | _ + 1, [] => []
  | fuel + 1, c :: rest =>
    if pat ≠ [] ∧ pat.isPrefixOf (c :: rest) then
      rep ++ replaceAllFuel pat rep fuel ((c :: rest).drop pat.length)
    else c :: replaceAllFuel pat rep fuel rest

/-- `result.replace(s, val)`. -/
def replaceAll (cs pat rep : List Char) : List Char :=
  replaceAllFuel pat rep cs.length cs

/-- `Emoji::replace_slice`: re-scan the text for all colon-delimited
candidates, then (in reverse order, as the source does) look each candidate
slice up — stripping the first and last byte, the colons — and substitute the
emoji glyph for every occurrence of the literal `:name:` substring.
A `byteSlice` failure models an out-of-boundary byte index (which would not
return normally in the source) and leaves the text unchanged; it is
unreachable for ranges produced by the scan loop. -/
def Emoji.replace_slice (slice : List (Nat × Event)) : List Event :=
  match slice with
  | [(_, .text value)] =>
    let cs := value.str.toList
    let result := ((emojiRanges cs).reverse).foldl
      (fun result r =>
        match byteSlice cs r.1 r.2 with
        | none => result
        | some s =>
          match byteSlice s 1 (utf8Len s - 1) with
          | none => result
          | some inner =>
            match get_by_shortcode (String.mk inner) with
            | some e => replaceAll result s e.toList
            | none => result)
      cs
    [Event.text (.boxed (String.mk result))]
  | _ => slice.map Prod.snd

/-! ## Plugin instances as records over their state types -/

/-- The CollapsibleHeaders plugin packaged behind the Plugin interface
(`window_size = 4`). -/
def CHP : Plugin CollapsibleHeaders where
  window_size := 4
  check_slice := CollapsibleHeaders.check_slice
  final_check := CollapsibleHeaders.final_check
  replace_slice := CollapsibleHeaders.replace_slice

/-- The stateless Emoji plugin (`window_size = 1`, state `Unit`,
`final_check` always `None`). -/
def EmojiP : Plugin Unit where
  window_size := 1
  check_slice := fun _ w => (Emoji.check_slice w, ())
  final_check := fun _ _ => (none, ())
  replace_slice := Emoji.replace_slice

/-! ## Window scanner (src/lib.rs, check_collection_with) -/

/-- Rust `slice::windows(n)`: all contiguous subslices of length `n`, none
when `n` exceeds the length.  (`windows(0)` does not return normally in Rust;
both reference plugins have `window_size ≥ 1`.) -/
def windows {α : Type} (n : Nat) : List α → List (List α)
  | [] => []
  | a :: rest =>
    if n ≤ (a :: rest).length then (a :: rest).take n :: windows n rest
    else []

/-- The window loop of `check_collection_with`: call `check_slice` on each
window in order, threading plugin state, collecting the `Some` results. -/
def scanWindows {σ : Type} (P : Plugin σ) : σ → List (List (Nat × Event)) →
    List MRange × σ
  | st, [] => ([], st)
  | st, w :: ws =>
    match P.check_slice st w with
    | (some r, st') =>
      let rest := scanWindows P st' ws
      (r :: rest.1, rest.2)
    | (none, st') => scanWindows P st' ws

/-- The window phase of a scan pass over an indexed collection. -/
def scanPass {σ : Type} (P : Plugin σ) (st : σ) (coll : List (Nat × Event)) :
    List MRange × σ :=
  scanWindows P st (windows P.window_size coll)

/-- The `final_check` phase: `collection.last().and_then(|item| plugin.final_check(item.0))`,
appending its result when present.  With an empty collection `last()` is
`None` and `final_check` is not invoked. -/
def withFinal {σ : Type} (P : Plugin σ) (pr : List MRange × σ)
    (coll : List (Nat × Event)) : List MRange × σ :=
  match coll.getLast? with
  | none => pr
  | some item =>
    match P.final_check pr.2 item.1 with
    | (some r, st2) => (pr.1 ++ [r], st2)
    | (none, st2) => (pr.1, st2)

/-- `check_collection_with`: windows phase, then final check, returning
`None` when no range was collected. -/
def check_collection_with {σ : Type} (P : Plugin σ) (st : σ)
    (coll : List (Nat × Event)) : Option (List MRange) × σ :=
  let all := withFinal P (scanPass P st coll) coll
  (if all.1.isEmpty then none else some all.1, all.2)

/-! ## Range splicer (src/lib.rs, rewrite_collection_with) -/

/-- The sum `ranges.iter().fold(0, |acc, r| acc + r.len())` of the debug
assertion checked before splicing. -/
def sumLens (ranges : List MRange) : Nat :=
  ranges.foldl (fun acc r => acc + r.len) 0

/-- The debug assertion of `rewrite_collection_with` (src/lib.rs line 210):
total covered length strictly below the collection length. -/
def spliceAssertion (ranges : List MRange) (coll : List (Nat × Event)) : Prop :=
  sumLens ranges < coll.length

/-- The splice loop: walk `idx` over the collection; a token whose position
is inside the next pending range triggers `replace_slice` on the slice
`collection[range]` and jumps `idx` by `range.len()`; otherwise the token is
copied.  Fuel-structured (`idx` advances by at least 1 per iteration, so
`coll.length` fuel suffices). -/
def rewrite_go (replace : List (Nat × Event) → List Event)
    (coll : List (Nat × Event)) (ranges : List MRange) :
    Nat → Nat → Nat → List Event
  | 0, _, _ => []
  | fuel + 1, idx, range_idx =>
    match coll.get? idx with
    | none => []
    | some pair =>
      match ranges.get? range_idx with
      | some range =>
        if range.containsPos pair.1 then
          replace ((coll.drop range.start).take (range.stop - range.start))
            ++ rewrite_go replace coll ranges fuel (idx + range.len) (range_idx + 1)
        else pair.2 :: rewrite_go replace coll ranges fuel (idx + 1) range_idx
      | none => pair.2 :: rewrite_go replace coll ranges fuel (idx + 1) range_idx

/-- `rewrite_collection_with`. -/
def rewrite_collection_with {σ : Type} (P : Plugin σ)
    (coll : List (Nat × Event)) (ranges : List MRange) : List Event :=
  rewrite_go P.replace_slice coll ranges coll.length 0 0

/-! ## Pipeline orchestrator (src/lib.rs, process_commonmark_tokens) -/

/-- A plugin with its state type and freshly constructed state, standing in
for one `Box<dyn Plugin>`. -/
structure PluginBox where
  State : Type
  plugin : Plugin State
  state : State

/-- `(0..).zip(collection)`: 0-based indexing of a token sequence. -/
def indexed (events : List Event) : List (Nat × Event) :=
  (List.range events.length).zip events

/-- One scan+splice pass for one plugin: splice when the scan found ranges,
identity copy otherwise. -/
def runPass (pb : PluginBox) (coll : List (Nat × Event)) : List Event :=
  match (check_collection_with pb.plugin pb.state coll).1 with
  | some ranges => rewrite_collection_with pb.plugin coll ranges
  | none => coll.map Prod.snd

/-- `process_commonmark_tokens`: with no plugins, clone the collection;
otherwise run every plugin in order, re-indexing positions from zero before
each pass. -/
def process_commonmark_tokens (events : List Event) (plugins : List PluginBox) :
    List Event :=
  if plugins.isEmpty then (indexed events).map Prod.snd
  else plugins.foldl (fun cur pb => runPass pb (indexed cur)) events

/-! ## Invariant machinery: chains of disjoint ascending ranges -/

/-- `Chain lo rs hi`: the ranges `rs` are nonempty, have ascending starts,
are pairwise disjoint (each begins at or after the previous one's stop), the
first begins at or after `lo`, and `hi` is the last stop (`lo` when empty). -/
inductive Chain : Nat → List MRange → Nat → Prop
  | nil (lo : Nat) : Chain lo [] lo
  | cons (lo : Nat) (r : MRange) (rs : List MRange) (hi : Nat) :
      lo ≤ r.start → r.start < r.stop → Chain r.stop rs hi → Chain lo (r :: rs) hi

theorem Chain.le {lo rs hi} (h : Chain lo rs hi) : lo ≤ hi := by
  induction h with
  | nil => exact Nat.le_refl _
  | cons lo r rs hi h1 h2 _ ih => omega

theorem sumLens_go (rs : List MRange) :
    ∀ n : Nat, rs.foldl (fun acc r => acc + r.len) n = n + sumLens rs := by
  induction rs with
  | nil => intro n; simp [sumLens]
  | cons r rs ih =>
    intro n
    simp only [sumLens, List.foldl_cons] at *
    rw [ih (n + r.len), ih (0 + r.len)]
    omega

theorem sumLens_cons (r : MRange) (rs : List MRange) :
    sumLens (r :: rs) = r.len + sumLens rs := by
  simp only [sumLens, List.foldl_cons]
  rw [sumLens_go rs (0 + r.len), sumLens_go rs 0]
  omega

theorem Chain.sum_le {lo rs hi} (h : Chain lo rs hi) : sumLens rs + lo ≤ hi := by
  induction h with
  | nil lo => simp [sumLens]
  | cons lo r rs hi h1 h2 _ ih =>
    have hcons := sumLens_cons r rs
    have hlen : r.len = r.stop - r.start := rfl
    omega

theorem Chain.mem_bounds {lo rs hi} (h : Chain lo rs hi) :
    ∀ x ∈ rs, lo ≤ x.start ∧ x.start < x.stop := by
  induction h with
  | nil => intro x hx; cases hx
  | cons lo r rs hi h1 h2 hc ih =>
    intro x hx
    rcases List.mem_cons.mp hx with rfl | hx
    · exact ⟨h1, h2⟩
    · have := ih x hx
      have := hc.le
      omega

theorem Chain.pairwise {lo rs hi} (h : Chain lo rs hi) :
    rs.Pairwise (fun a b => a.stop ≤ b.start ∧ a.start < b.start) := by
  induction h with
  | nil => exact List.Pairwise.nil
  | cons lo r rs hi h1 h2 hc ih =>
    refine List.Pairwise.cons ?_ ih
    intro b hb
    have hbb := hc.mem_bounds b hb
    omega

theorem Chain.append_one {lo rs hi} (h : Chain lo rs hi) :
    ∀ s e : Nat, hi ≤ s → s < e → Chain lo (rs ++ [⟨s, e⟩]) e := by
  induction h with
  | nil lo =>
    intro s e h1 h2
    exact Chain.cons lo ⟨s, e⟩ [] e h1 h2 (Chain.nil e)
  | cons lo r rs hi h1 h2 _ ih =>
    intro s e hs he
    exact Chain.cons lo r (rs ++ [⟨s, e⟩]) e h1 h2 (ih s e hs he)

/-! ## Indexed-collection and windows lemmas -/

/-- `indexedFrom h evs`: the tokens of `evs` paired with consecutive
positions starting at `h`; `indexed evs = indexedFrom 0 evs`. -/
def indexedFrom (h : Nat) : List Event → List (Nat × Event)
  | [] => []
  | e :: es => (h, e) :: indexedFrom (h + 1) es

theorem indexedFrom_eq_zip (evs : List Event) :
    ∀ h : Nat, (List.range' h evs.length).zip evs = indexedFrom h evs := by
  induction evs with
  | nil => intro h; rfl
  | cons e es ih =>
    intro h
    simp only [List.length_cons, List.range'_succ, List.zip_cons_cons, indexedFrom]
    rw [ih]

theorem indexed_eq (evs : List Event) : indexed evs = indexedFrom 0 evs := by
  rw [indexed, List.range_eq_range', indexedFrom_eq_zip]

theorem indexedFrom_length (evs : List Event) :
    ∀ h : Nat, (indexedFrom h evs).length = evs.length := by
  induction evs with
  | nil => intro h; rfl
  | cons e es ih => intro h; simp [indexedFrom, ih]

theorem indexedFrom_getLast (evs : List Event) (hne : evs ≠ []) :
    ∀ h : Nat, ∃ e : Event,
      (indexedFrom h evs).getLast? = some (h + evs.length - 1, e) := by
  induction evs with
  | nil => exact absurd rfl hne
  | cons a es ih =>
    intro h
    cases es with
    | nil => exact ⟨a, by simp [indexedFrom]⟩
    | cons b bs =>
      obtain ⟨e, he⟩ := ih (by simp) (h + 1)
      refine ⟨e, ?_⟩
      rw [show indexedFrom h (a :: b :: bs)
            = (h, a) :: (h+1, b) :: indexedFrom (h+2) bs from rfl,
          List.getLast?_cons_cons]
      rw [show indexedFrom (h + 1) (b :: bs)
            = (h+1, b) :: indexedFrom (h+2) bs from rfl] at he
      rw [he]
      congr 2
      simp only [List.length_cons]
      omega

theorem windows_eq_nil {α : Type} (n : Nat) (l : List α) (h : l.length < n) :
    windows n l = [] := by
  cases l with
  | nil => rfl
  | cons a rest =>
    rw [windows, if_neg]
    omega

theorem windows4_cons (h : Nat) (e0 e1 e2 e3 : Event) (tail : List Event) :
    windows 4 (indexedFrom h (e0 :: e1 :: e2 :: e3 :: tail))
      = [(h, e0), (h+1, e1), (h+2, e2), (h+3, e3)]
        :: windows 4 (indexedFrom (h+1) (e1 :: e2 :: e3 :: tail)) := by
  rw [show indexedFrom h (e0 :: e1 :: e2 :: e3 :: tail)
      = (h, e0) :: (h+1, e1) :: (h+2, e2) :: (h+3, e3) :: indexedFrom (h+4) tail from rfl]
  rw [windows, if_pos]
  · rfl
  · simp [indexedFrom_length]

theorem windows1_cons (h : Nat) (e : Event) (tail : List Event) :
    windows 1 (indexedFrom h (e :: tail))
      = [(h, e)] :: windows 1 (indexedFrom (h + 1) tail) := by
  rw [show indexedFrom h (e :: tail) = (h, e) :: indexedFrom (h+1) tail from rfl]
  rw [windows, if_pos]
  · rfl
  · simp

/-! ## Step analysis of CollapsibleHeaders.check_slice on one window -/

theorem closeVal_cases (st : CollapsibleHeaders) (idx : Nat) :
    closeVal st idx = (none, st)
    ∨ ∃ r, st.range = some r
        ∧ closeVal st idx = (some ⟨r.start, idx⟩, { st with range := none }) := by
  rcases hr : st.range with _ | r
  · left; simp [closeVal, hr]
  · right; exact ⟨r, rfl, by simp [closeVal, hr]⟩

theorem arm2val_cases (st : CollapsibleHeaders) (idx : Nat) (lvl : HeadingLevel) :
    arm2val st idx lvl = (none, st)
    ∨ ∃ r, st.range = some r
        ∧ arm2val st idx lvl = (some ⟨r.start, idx⟩, { st with range := none }) := by
  unfold arm2val
  by_cases h5 : lvl.toNat < 5
  · rw [if_pos h5]; exact closeVal_cases st idx
  · left; rw [if_neg h5]

theorem arm1val_cases (st : CollapsibleHeaders) (a b : Nat) (lvl : HeadingLevel)
    (v : String) :
    arm1val st a b lvl v = (none, st)
    ∨ (st.range = none ∧ arm1val st a b lvl v = (none, { st with range := some ⟨a, b⟩ }))
    ∨ ∃ r, st.range = some r
        ∧ arm1val st a b lvl v = (some ⟨r.start, b⟩, { st with range := none }) := by
  unfold arm1val
  by_cases hg : st.level ≤ lvl.toNat ∧ v = st.text
  · rcases hr : st.range with _ | r
    · right; left; exact ⟨rfl, by simp [hg, hr]⟩
    · right; right; exact ⟨r, rfl, by simp [hg, hr]⟩
  · left; rw [if_neg hg]

/-- Possible outcomes of one `check_slice` call on a window of four
consecutively indexed tokens: no-op; open a span `h..h+3` (full
heading+marker shape, no span open); close the open span at the head `h`
(heading- or rule-headed window); or close it at `h+3` (second
heading+marker occurrence). -/
def ChOutcome (st : CollapsibleHeaders) (h : Nat) (e0 e1 e2 e3 : Event) : Prop :=
  CollapsibleHeaders.check_slice st [(h, e0), (h+1, e1), (h+2, e2), (h+3, e3)] = (none, st)
  ∨ (st.range = none
      ∧ (∃ lvl attrs, e0 = Event.start (Tag.heading lvl attrs))
      ∧ e1 = Event.start Tag.emphasis
      ∧ (∃ s, e2 = Event.text (CowStr.borrowed s))
      ∧ e3 = Event.end_ Tag.emphasis
      ∧ CollapsibleHeaders.check_slice st [(h, e0), (h+1, e1), (h+2, e2), (h+3, e3)]
          = (none, { st with range := some ⟨h, h+3⟩ }))
  ∨ (∃ r, st.range = some r
      ∧ ((((∃ lvl attrs, e0 = Event.start (Tag.heading lvl attrs)) ∨ e0 = Event.rule)
          ∧ CollapsibleHeaders.check_slice st [(h, e0), (h+1, e1), (h+2, e2), (h+3, e3)]
              = (some ⟨r.start, h⟩, { st with range := none }))
        ∨ ((∃ lvl attrs, e0 = Event.start (Tag.heading lvl attrs))
            ∧ e1 = Event.start Tag.emphasis
            ∧ (∃ s, e2 = Event.text (CowStr.borrowed s))
            ∧ e3 = Event.end_ Tag.emphasis
            ∧ CollapsibleHeaders.check_slice st [(h, e0), (h+1, e1), (h+2, e2), (h+3, e3)]
                = (some ⟨r.start, h+3⟩, { st with range := none }))))

theorem liftInert (st : CollapsibleHeaders) (h : Nat) (e0 e1 e2 e3 : Event)
    (hred : CollapsibleHeaders.check_slice st [(h, e0), (h+1, e1), (h+2, e2), (h+3, e3)]
      = (none, st)) :
    ChOutcome st h e0 e1 e2 e3 :=
  Or.inl hred

theorem liftArm2 (st : CollapsibleHeaders) (h : Nat) (e1 e2 e3 : Event)
    (lvl : HeadingLevel) (attrs : Nat)
    (hred : CollapsibleHeaders.check_slice st
        [(h, Event.start (Tag.heading lvl attrs)), (h+1, e1), (h+2, e2), (h+3, e3)]
      = arm2val st h lvl) :
    ChOutcome st h (Event.start (Tag.heading lvl attrs)) e1 e2 e3 := by
  rcases arm2val_cases st h lvl with hc | ⟨r, hr, hc⟩
  · exact Or.inl (hred.trans hc)
  · exact Or.inr (Or.inr ⟨r, hr, Or.inl ⟨Or.inl ⟨lvl, attrs, rfl⟩, hred.trans hc⟩⟩)

theorem liftRule (st : CollapsibleHeaders) (h : Nat) (e1 e2 e3 : Event)
    (hred : CollapsibleHeaders.check_slice st
        [(h, Event.rule), (h+1, e1), (h+2, e2), (h+3, e3)] = closeVal st h) :
    ChOutcome st h Event.rule e1 e2 e3 := by
  rcases closeVal_cases st h with hc | ⟨r, hr, hc⟩
  · exact Or.inl (hred.trans hc)
  · exact Or.inr (Or.inr ⟨r, hr, Or.inl ⟨Or.inr rfl, hred.trans hc⟩⟩)

theorem liftArm1 (st : CollapsibleHeaders) (h : Nat) (lvl : HeadingLevel)
    (attrs : Nat) (v : String)
    (hred : CollapsibleHeaders.check_slice st
        [(h, Event.start (Tag.heading lvl attrs)), (h+1, Event.start Tag.emphasis),
         (h+2, Event.text (CowStr.borrowed v)), (h+3, Event.end_ Tag.emphasis)]
      = arm1val st h (h+3) lvl v) :
    ChOutcome st h (Event.start (Tag.heading lvl attrs)) (Event.start Tag.emphasis)
      (Event.text (CowStr.borrowed v)) (Event.end_ Tag.emphasis) := by
  rcases arm1val_cases st h (h+3) lvl v with hc | ⟨hn, hc⟩ | ⟨r, hr, hc⟩
  · exact Or.inl (hred.trans hc)
  · exact Or.inr (Or.inl ⟨hn, ⟨lvl, attrs, rfl⟩, rfl, ⟨v, rfl⟩, rfl, hred.trans hc⟩)
  · exact Or.inr (Or.inr ⟨r, hr,
      Or.inr ⟨⟨lvl, attrs, rfl⟩, rfl, ⟨v, rfl⟩, rfl, hred.trans hc⟩⟩)

/-- Every `check_slice` call on four consecutively indexed tokens realizes
one of the `ChOutcome` outcomes. -/
theorem chCheckSlice_cases (st : CollapsibleHeaders) (h : Nat) (e0 e1 e2 e3 : Event) :
    ChOutcome st h e0 e1 e2 e3 := by
  rcases e0 with t0 | t0 | s0 | s0 | _ | _ | k0
  · rcases t0 with ⟨lvl, attrs⟩ | _ | _ | k0
    · -- heading-headed window: arm 1 when the marker shape matches, arm 2 otherwise
      rcases e1 with t1 | t1 | s1 | s1 | _ | _ | k1
      · rcases t1 with ⟨lvl1, attrs1⟩ | _ | _ | k1
        · exact liftArm2 st h _ e2 e3 lvl attrs rfl
        · rcases e2 with t2 | t2 | s2 | s2 | _ | _ | k2
          · exact liftArm2 st h _ _ e3 lvl attrs rfl
          · exact liftArm2 st h _ _ e3 lvl attrs rfl
          · rcases s2 with s2 | s2 | s2
            · rcases e3 with t3 | t3 | s3 | s3 | _ | _ | k3
              · exact liftArm2 st h _ _ _ lvl attrs rfl
              · rcases t3 with ⟨lvl3, attrs3⟩ | _ | _ | k3
                · exact liftArm2 st h _ _ _ lvl attrs rfl
                · exact liftArm1 st h lvl attrs s2 rfl
                · exact liftArm2 st h _ _ _ lvl attrs rfl
                · exact liftArm2 st h _ _ _ lvl attrs rfl
              · exact liftArm2 st h _ _ _ lvl attrs rfl
              · exact liftArm2 st h _ _ _ lvl attrs rfl
              · exact liftArm2 st h _ _ _ lvl attrs rfl
              · exact liftArm2 st h _ _ _ lvl attrs rfl
              · exact liftArm2 st h _ _ _ lvl attrs rfl
            · exact liftArm2 st h _ _ e3 lvl attrs rfl
            · exact liftArm2 st h _ _ e3 lvl attrs rfl
          · exact liftArm2 st h _ _ e3 lvl attrs rfl
          · exact liftArm2 st h _ _ e3 lvl attrs rfl
          · exact liftArm2 st h _ _ e3 lvl attrs rfl
          · exact liftArm2 st h _ _ e3 lvl attrs rfl
        · exact liftArm2 st h _ e2 e3 lvl attrs rfl
        · exact liftArm2 st h _ e2 e3 lvl attrs rfl
      · exact liftArm2 st h _ e2 e3 lvl attrs rfl
      · exact liftArm2 st h _ e2 e3 lvl attrs rfl
      · exact liftArm2 st h _ e2 e3 lvl attrs rfl
      · exact liftArm2 st h _ e2 e3 lvl attrs rfl
      · exact liftArm2 st h _ e2 e3 lvl attrs rfl
      · exact liftArm2 st h _ e2 e3 lvl attrs rfl
    · exact liftInert st h _ e1 e2 e3 rfl
    · exact liftInert st h _ e1 e2 e3 rfl
    · exact liftInert st h _ e1 e2 e3 rfl
  · exact liftInert st h _ e1 e2 e3 rfl
  · exact liftInert st h _ e1 e2 e3 rfl
  · exact liftInert st h _ e1 e2 e3 rfl
  · exact liftInert st h _ e1 e2 e3 rfl
  · exact liftRule st h e1 e2 e3 rfl
  · exact liftInert st h _ e1 e2 e3 rfl

/-- A window headed by anything other than a heading-open or a rule is a
no-op for `CollapsibleHeaders.check_slice`, whatever the rest of the window
holds. -/
theorem chCheck_inert (st : CollapsibleHeaders) (p : Nat) (e : Event)
    (rest : List (Nat × Event))
    (h1 : ∀ lvl x, e ≠ Event.start (Tag.heading lvl x)) (h2 : e ≠ Event.rule) :
    CollapsibleHeaders.check_slice st ((p, e) :: rest) = (none, st) := by
  rcases e with t | t | s | s | _ | _ | k
  · rcases t with ⟨lvl, x⟩ | _ | _ | k
    · exact absurd rfl (h1 lvl x)
    · rfl
    · rfl
    · rfl
  · rfl
  · rfl
  · rfl
  · rfl
  · exact absurd rfl h2
  · rfl

/-! ## Scan-pass invariant for CollapsibleHeaders -/

theorem CHP_check (st : CollapsibleHeaders) (w : List (Nat × Event)) :
    CHP.check_slice st w = CollapsibleHeaders.check_slice st w := rfl

theorem scanWindows_cons_none {σ : Type} (P : Plugin σ) (st st' : σ)
    (w : List (Nat × Event)) (ws : List (List (Nat × Event)))
    (hc : P.check_slice st w = (none, st')) :
    scanWindows P st (w :: ws) = scanWindows P st' ws := by
  rw [scanWindows, hc]

theorem scanWindows_cons_some {σ : Type} (P : Plugin σ) (st st' : σ) (r : MRange)
    (w : List (Nat × Event)) (ws : List (List (Nat × Event)))
    (hc : P.check_slice st w = (some r, st')) :
    scanWindows P st (w :: ws)
      = (r :: (scanWindows P st' ws).1, (scanWindows P st' ws).2) := by
  rw [scanWindows, hc]

/-- An event that can never head a matching CollapsibleHeaders window. -/
def InertHead (e : Event) : Prop :=
  (∀ lvl x, e ≠ Event.start (Tag.heading lvl x)) ∧ e ≠ Event.rule

theorem inert_start_emphasis : InertHead (Event.start Tag.emphasis) := by
  constructor
  · intro lvl x hh
    injection hh with h'
    cases h'
  · intro hh; cases hh

theorem inert_text (s : CowStr) : InertHead (Event.text s) := by
  constructor
  · intro lvl x hh; cases hh
  · intro hh; cases hh

theorem inert_end (t : Tag) : InertHead (Event.end_ t) := by
  constructor
  · intro lvl x hh; cases hh
  · intro hh; cases hh

/-- Scanning past a window headed by an inert event changes nothing. -/
theorem chScan_skip (st : CollapsibleHeaders) (h : Nat) (e : Event)
    (evs : List Event) (hin : InertHead e) :
    scanWindows CHP st (windows 4 (indexedFrom h (e :: evs)))
      = scanWindows CHP st (windows 4 (indexedFrom (h+1) evs)) := by
  cases evs with
  | nil =>
    rw [windows_eq_nil 4 _ (by simp [indexedFrom_length]),
        windows_eq_nil 4 _ (by simp [indexedFrom_length])]
  | cons e1 rest1 =>
    cases rest1 with
    | nil =>
      rw [windows_eq_nil 4 _ (by simp [indexedFrom_length]),
          windows_eq_nil 4 _ (by simp [indexedFrom_length])]
    | cons e2 rest2 =>
      cases rest2 with
      | nil =>
        rw [windows_eq_nil 4 _ (by simp [indexedFrom_length]),
            windows_eq_nil 4 _ (by simp [indexedFrom_length])]
      | cons e3 tail =>
        rw [windows4_cons]
        exact scanWindows_cons_none CHP st st _ _
          ((CHP_check _ _).trans (chCheck_inert st h e _ hin.1 hin.2))

/-- Precondition of the scan invariant: either no span is open and the chain
lower bound does not exceed the next window head, or a span is open with its
start at or above the lower bound and strictly before the next window head. -/
def CHpre (st : CollapsibleHeaders) (lo h : Nat) : Prop :=
  (st.range = none ∧ lo ≤ h) ∨ ∃ r, st.range = some r ∧ lo ≤ r.start ∧ r.start < h

/-- Postcondition: if a span is still open after the scan, its start is at
or above the chain bound `hi` and either fits a window of the scanned region
(`start + 4 ≤ h + len`) or was already open at entry with the same range. -/
def CHpost (st0 st : CollapsibleHeaders) (hi h len : Nat) : Prop :=
  st.range = none
  ∨ ∃ r, st.range = some r ∧ hi ≤ r.start
      ∧ (r.start + 4 ≤ h + len ∨ st0.range = some r)

/-- Main invariant of the CollapsibleHeaders window scan: starting from a
state satisfying `CHpre st lo h`, the ranges collected over the windows of
`indexedFrom h evs` form a `Chain lo … hi` with `hi` bounded by `lo` or by
the last window position `h + evs.length - 1`, and the final state satisfies
`CHpost`. -/
theorem chScan_spec : ∀ (N : Nat) (evs : List Event), evs.length ≤ N →
    ∀ (h lo : Nat) (st : CollapsibleHeaders), CHpre st lo h →
    ∃ hi,
      Chain lo (scanWindows CHP st (windows 4 (indexedFrom h evs))).1 hi
      ∧ (hi ≤ lo ∨ hi ≤ h + evs.length - 1)
      ∧ CHpost st (scanWindows CHP st (windows 4 (indexedFrom h evs))).2 hi h evs.length := by
  intro N
  induction N with
  | zero =>
    intro evs hlen h lo st hpre
    have hnil : evs = [] := List.length_eq_zero.mp (Nat.le_zero.mp hlen)
    subst hnil
    rw [windows_eq_nil 4 _ (by simp [indexedFrom_length])]
    refine ⟨lo, Chain.nil lo, Or.inl (Nat.le_refl lo), ?_⟩
    rcases hpre with ⟨hn, _⟩ | ⟨r, hr, hlo, _⟩
    · exact Or.inl hn
    · exact Or.inr ⟨r, hr, hlo, Or.inr hr⟩
  | succ N ih =>
    intro evs hlen h lo st hpre
    match evs with
    | [] | [_] | [_, _] | [_, _, _] =>
      rw [windows_eq_nil 4 _ (by simp [indexedFrom_length])]
      refine ⟨lo, Chain.nil lo, Or.inl (Nat.le_refl lo), ?_⟩
      rcases hpre with ⟨hn, _⟩ | ⟨r, hr, hlo, _⟩
      · exact Or.inl hn
      · exact Or.inr ⟨r, hr, hlo, Or.inr hr⟩
    | e0 :: e1 :: e2 :: e3 :: tail =>
      rw [windows4_cons]
      have hout := chCheckSlice_cases st h e0 e1 e2 e3
      unfold ChOutcome at hout
      rcases hout with hnoop | ⟨hnone, _, he1, ⟨s2, he2⟩, he3, hopen⟩ | ⟨r, hr, hclose⟩
      · -- no-op window
        rw [scanWindows_cons_none CHP st st _ _ ((CHP_check _ _).trans hnoop)]
        have hpre' : CHpre st lo (h+1) := by
          unfold CHpre at hpre ⊢
          rcases hpre with ⟨hn, hlo⟩ | ⟨r, hr, hlo, hs⟩
          · exact Or.inl ⟨hn, by omega⟩
          · exact Or.inr ⟨r, hr, hlo, by omega⟩
        obtain ⟨hi, hchain, hhi, hpost⟩ :=
          ih (e1 :: e2 :: e3 :: tail) (by simp at hlen ⊢; omega) (h+1) lo st hpre'
        refine ⟨hi, hchain, ?_, ?_⟩
        · simp only [List.length_cons] at hhi ⊢; omega
        · unfold CHpost at hpost ⊢
          rcases hpost with hn | ⟨r, hrr, hhir, hfit | hsame⟩
          · exact Or.inl hn
          · exact Or.inr ⟨r, hrr, hhir, Or.inl (by simp only [List.length_cons] at hfit ⊢; omega)⟩
          · exact Or.inr ⟨r, hrr, hhir, Or.inr hsame⟩
      · -- open a span at h
        rw [scanWindows_cons_none CHP st _ _ _ ((CHP_check _ _).trans hopen)]
        have hloh : lo ≤ h := by
          rcases hpre with ⟨_, hlo⟩ | ⟨r, hr, _, _⟩
          · exact hlo
          · rw [hnone] at hr; cases hr
        have hpre' : CHpre { st with range := some ⟨h, h+3⟩ } lo (h+1) :=
          Or.inr ⟨⟨h, h+3⟩, rfl, hloh, by show h < h + 1; omega⟩
        obtain ⟨hi, hchain, hhi, hpost⟩ :=
          ih (e1 :: e2 :: e3 :: tail) (by simp at hlen ⊢; omega) (h+1) lo _ hpre'
        refine ⟨hi, hchain, ?_, ?_⟩
        · simp only [List.length_cons] at hhi ⊢; omega
        · unfold CHpost at hpost ⊢
          rcases hpost with hn | ⟨r, hrr, hhir, hfit | hsame⟩
          · exact Or.inl hn
          · exact Or.inr ⟨r, hrr, hhir, Or.inl (by simp only [List.length_cons] at hfit ⊢; omega)⟩
          · -- the span is the one just opened: its head fits the first window
            have : r = ⟨h, h+3⟩ := by
              injection hsame with h'
              exact h'.symm
            subst this
            refine Or.inr ⟨⟨h, h+3⟩, hrr, hhir, Or.inl ?_⟩
            show h + 4 ≤ h + (e0 :: e1 :: e2 :: e3 :: tail).length
            simp only [List.length_cons]
            omega
      · -- a close happens
        obtain ⟨r0, hr0, hlo0, hs0⟩ : ∃ r0, st.range = some r0 ∧ lo ≤ r0.start ∧ r0.start < h := by
          rcases hpre with ⟨hn, _⟩ | ⟨r0, hr0, hlo0, hs0⟩
          · rw [hn] at hr; cases hr
          · exact ⟨r0, hr0, hlo0, hs0⟩
        have hr0r : r0 = r := by rw [hr0] at hr; injection hr
        subst hr0r
        rcases hclose with ⟨_, hc⟩ | ⟨_, he1, ⟨s2, he2⟩, he3, hc⟩
        · -- close at h (shallow heading or rule)
          rw [scanWindows_cons_some CHP st _ _ _ _ ((CHP_check _ _).trans hc)]
          have hpre' : CHpre { st with range := none } h (h+1) := Or.inl ⟨rfl, by omega⟩
          obtain ⟨hi, hchain, hhi, hpost⟩ :=
            ih (e1 :: e2 :: e3 :: tail) (by simp at hlen ⊢; omega) (h+1) h _ hpre'
          refine ⟨hi, Chain.cons lo ⟨r0.start, h⟩ _ hi hlo0 hs0 hchain, ?_, ?_⟩
          · simp only [List.length_cons] at hhi ⊢; omega
          · unfold CHpost at hpost ⊢
            rcases hpost with hn | ⟨r', hrr, hhir, hfit | hsame⟩
            · exact Or.inl hn
            · exact Or.inr ⟨r', hrr, hhir, Or.inl (by simp only [List.length_cons] at hfit ⊢; omega)⟩
            · cases hsame
        · -- close at h+3 (second heading+marker occurrence); the three
          -- following windows are headed by the marker tokens, all inert
          subst he1; subst he2; subst he3
          rw [scanWindows_cons_some CHP st _ _ _ _ ((CHP_check _ _).trans hc)]
          rw [chScan_skip _ (h+1) _ _ inert_start_emphasis,
              chScan_skip _ (h+2) _ _ (inert_text _),
              chScan_skip _ (h+3) _ _ (inert_end _)]
          have hpre' : CHpre { st with range := none } (h+3) (h+4) := Or.inl ⟨rfl, by omega⟩
          obtain ⟨hi, hchain, hhi, hpost⟩ :=
            ih tail (by simp at hlen; omega) (h+4) (h+3) _ hpre'
          refine ⟨hi, Chain.cons lo ⟨r0.start, h+3⟩ _ hi hlo0 (by simp; omega) hchain, ?_, ?_⟩
          · simp only [List.length_cons] at hhi ⊢; omega
          · unfold CHpost at hpost ⊢
            rcases hpost with hn | ⟨r', hrr, hhir, hfit | hsame⟩
            · exact Or.inl hn
            · exact Or.inr ⟨r', hrr, hhir, Or.inl (by simp only [List.length_cons] at hfit ⊢; omega)⟩
            · cases hsame

theorem CHP_final (st : CollapsibleHeaders) (p : Nat) :
    CHP.final_check st p = CollapsibleHeaders.final_check st p := rfl

theorem withFinal_last {σ : Type} (P : Plugin σ) (pr : List MRange × σ)
    (coll : List (Nat × Event)) (p : Nat) (e : Event)
    (hl : coll.getLast? = some (p, e)) :
    withFinal P pr coll
      = match P.final_check pr.2 p with
        | (some r, st2) => (pr.1 ++ [r], st2)
        | (none, st2) => (pr.1, st2) := by
  rw [withFinal, hl]

theorem withFinal_ch_none (pr : List MRange × CollapsibleHeaders)
    (coll : List (Nat × Event)) (p : Nat) (e : Event)
    (hl : coll.getLast? = some (p, e)) (hr : pr.2.range = none) :
    withFinal CHP pr coll = (pr.1, pr.2) := by
  rw [withFinal_last CHP pr coll p e hl]
  simp only [CHP_final, CollapsibleHeaders.final_check, hr]

theorem withFinal_ch_some (pr : List MRange × CollapsibleHeaders)
    (coll : List (Nat × Event)) (p : Nat) (e : Event) (r' : MRange)
    (hl : coll.getLast? = some (p, e)) (hr : pr.2.range = some r') :
    withFinal CHP pr coll
      = (pr.1 ++ [⟨r'.start, p⟩], { pr.2 with range := some ⟨r'.start, p⟩ }) := by
  rw [withFinal_last CHP pr coll p e hl]
  simp only [CHP_final, CollapsibleHeaders.final_check, hr]

/-- The ranges of one full CollapsibleHeaders scan pass (windows plus final
check) over a freshly constructed plugin form a chain from 0 bounded by
`evs.length - 1`. -/
theorem ch_collect_chain (level : Nat) (text : String) (evs : List Event)
    (hne : evs ≠ []) (ranges : List MRange)
    (hch : (check_collection_with CHP (CollapsibleHeaders.new level text) (indexed evs)).1
      = some ranges) :
    ∃ hi, Chain 0 ranges hi ∧ hi ≤ evs.length - 1 := by
  have hlen1 : 1 ≤ evs.length := by
    cases evs with
    | nil => exact absurd rfl hne
    | cons a l => simp
  obtain ⟨hi0, hchain, hhi0, hpost⟩ :=
    chScan_spec evs.length evs (Nat.le_refl _) 0 0 (CollapsibleHeaders.new level text)
      (Or.inl ⟨rfl, Nat.le_refl 0⟩)
  obtain ⟨elast, hlast⟩ := indexedFrom_getLast evs hne 0
  unfold CHpost at hpost
  have hsp : scanPass CHP (CollapsibleHeaders.new level text) (indexed evs)
      = scanWindows CHP (CollapsibleHeaders.new level text) (windows 4 (indexedFrom 0 evs)) := by
    rw [scanPass, indexed_eq]
    rfl
  rw [check_collection_with, hsp] at hch
  rw [indexed_eq] at hch
  rcases hr' : (scanWindows CHP (CollapsibleHeaders.new level text)
      (windows 4 (indexedFrom 0 evs))).2.range with _ | r'
  · -- no open span at end of the window phase: final_check contributes nothing
    rw [withFinal_ch_none _ _ _ elast hlast hr'] at hch
    by_cases he : ((scanWindows CHP (CollapsibleHeaders.new level text)
        (windows 4 (indexedFrom 0 evs))).1.isEmpty = true)
    · rw [if_pos he] at hch
      cases hch
    · rw [if_neg he] at hch
      injection hch with hch
      subst hch
      exact ⟨hi0, hchain, by omega⟩
  · -- an open span remains: final_check emits `start..(last position)`
    have hfit : r'.start + 4 ≤ evs.length := by
      rcases hpost with hn | ⟨r'', hrr, hhir, hfit | hsame⟩
      · rw [hn] at hr'; cases hr'
      · rw [hrr] at hr'
        injection hr' with hr'
        subst hr'
        omega
      · cases hsame
    have hhir : hi0 ≤ r'.start := by
      rcases hpost with hn | ⟨r'', hrr, hhir2, _⟩
      · rw [hn] at hr'; cases hr'
      · rw [hrr] at hr'
        injection hr' with hr'
        subst hr'
        exact hhir2
    rw [withFinal_ch_some _ _ _ elast r' hlast hr'] at hch
    by_cases he : (((scanWindows CHP (CollapsibleHeaders.new level text)
        (windows 4 (indexedFrom 0 evs))).1
          ++ [(⟨r'.start, 0 + evs.length - 1⟩ : MRange)]).isEmpty = true)
    · rw [if_pos he] at hch
      cases hch
    · rw [if_neg he] at hch
      injection hch with hch
      subst hch
      refine ⟨evs.length - 1, ?_, Nat.le_refl _⟩
      have h01 : (0 : Nat) + evs.length - 1 = evs.length - 1 := by omega
      rw [h01]
      exact hchain.append_one r'.start (evs.length - 1) hhir (by omega)

/-! ## Scan-pass invariant for Emoji -/

theorem EmojiP_check (st : Unit) (w : List (Nat × Event)) :
    EmojiP.check_slice st w = (Emoji.check_slice w, ()) := rfl

/-- One Emoji window either misses or matches exactly its own token. -/
theorem emCheck_cases (i : Nat) (e : Event) :
    Emoji.check_slice [(i, e)] = none ∨ Emoji.check_slice [(i, e)] = some ⟨i, i + 1⟩ := by
  rcases e with t | t | s | s | _ | _ | k
  · left; rfl
  · left; rfl
  · rcases hb : ((betweenFirstColons s.str.toList).bind
        fun inner => get_by_shortcode (String.mk inner)) with _ | x
    · left
      show ((betweenFirstColons s.str.toList).bind
        fun inner => get_by_shortcode (String.mk inner)).map
          (fun _ => (⟨i, i + 1⟩ : MRange)) = none
      rw [hb]
      rfl
    · right
      show ((betweenFirstColons s.str.toList).bind
        fun inner => get_by_shortcode (String.mk inner)).map
          (fun _ => (⟨i, i + 1⟩ : MRange)) = some ⟨i, i + 1⟩
      rw [hb]
      rfl
  · left; rfl
  · left; rfl
  · left; rfl
  · left; rfl

/-- Invariant of the Emoji window scan: the collected ranges chain upward
from `lo ≤ h`, bounded by one past the last position. -/
theorem emScan_spec : ∀ (evs : List Event) (h lo : Nat), lo ≤ h →
    ∃ hi, Chain lo (scanWindows EmojiP () (windows 1 (indexedFrom h evs))).1 hi
      ∧ (hi ≤ lo ∨ hi ≤ h + evs.length) := by
  intro evs
  induction evs with
  | nil =>
    intro h lo hle
    rw [windows_eq_nil 1 _ (by simp [indexedFrom_length])]
    exact ⟨lo, Chain.nil lo, Or.inl (Nat.le_refl _)⟩
  | cons e rest ih =>
    intro h lo hle
    rw [windows1_cons]
    rcases emCheck_cases h e with hc | hc
    · rw [scanWindows_cons_none EmojiP () () _ _ (by rw [EmojiP_check, hc])]
      obtain ⟨hi, hchain, hhi⟩ := ih (h+1) lo (by omega)
      refine ⟨hi, hchain, ?_⟩
      simp only [List.length_cons] at *
      omega
    · rw [scanWindows_cons_some EmojiP () () ⟨h, h+1⟩ _ _ (by rw [EmojiP_check, hc])]
      obtain ⟨hi, hchain, hhi⟩ := ih (h+1) (h+1) (Nat.le_refl _)
      refine ⟨hi, Chain.cons lo ⟨h, h+1⟩ _ hi hle (by show h < h + 1; omega) hchain, ?_⟩
      simp only [List.length_cons] at *
      omega

/-- The ranges of one full Emoji scan pass form a chain from 0 bounded by
`evs.length` (the final check never contributes). -/
theorem em_collect_chain (evs : List Event) (ranges : List MRange)
    (hch : (check_collection_with EmojiP () (indexed evs)).1 = some ranges) :
    ∃ hi, Chain 0 ranges hi ∧ hi ≤ evs.length := by
  obtain ⟨hi, hchain, hhi⟩ := emScan_spec evs 0 0 (Nat.le_refl 0)
  have hwf : withFinal EmojiP (scanPass EmojiP () (indexed evs)) (indexed evs)
      = scanPass EmojiP () (indexed evs) := by
    cases hl : (indexed evs).getLast? with
    | none => rw [withFinal, hl]
    | some item =>
      rw [withFinal_last EmojiP _ _ item.1 item.2 (by rw [hl])]
      rfl
  rw [check_collection_with, hwf] at hch
  by_cases he : ((scanPass EmojiP () (indexed evs)).1.isEmpty = true)
  · rw [if_pos he] at hch
    cases hch
  · rw [if_neg he] at hch
    injection hch with hch
    subst hch
    have hsp : scanPass EmojiP () (indexed evs)
        = scanWindows EmojiP () (windows 1 (indexedFrom 0 evs)) := by
      rw [scanPass, indexed_eq]
      rfl
    rw [hsp]
    exact ⟨hi, hchain, by omega⟩

/-! ## Characterization of the first colon pair (for the Emoji check) -/

theorem colonSplit_of_any (l : List Char)
    (ha : l.any (fun c => c = ':') = true) :
    ∃ post, l = l.takeWhile (fun c => ¬ (c = ':')) ++ ':' :: post
      ∧ ':' ∉ l.takeWhile (fun c => ¬ (c = ':')) := by
  induction l with
  | nil => cases ha
  | cons c l' ih =>
    by_cases hc : c = ':'
    · subst hc
      refine ⟨l', ?_, ?_⟩
      · simp [List.takeWhile_cons]
      · simp [List.takeWhile_cons]
    · have ha' : l'.any (fun c => c = ':') = true := by
        simp only [List.any_cons] at ha
        rcases Bool.or_eq_true_iff.mp ha with h1 | h1
        · exact absurd (of_decide_eq_true h1) hc
        · exact h1
      obtain ⟨post, heq, hmem⟩ := ih ha'
      refine ⟨post, ?_, ?_⟩
      · rw [List.takeWhile_cons, if_pos (by simpa using hc)]
        rw [List.cons_append]
        exact congrArg (c :: ·) heq
      · rw [List.takeWhile_cons, if_pos (by simpa using hc)]
        intro hmem'
        rcases List.mem_cons.mp hmem' with h1 | h1
        · exact hc h1.symm
        · exact hmem h1

theorem takeWhile_append_colon (mid post : List Char) (hmid : ':' ∉ mid) :
    (mid ++ ':' :: post).takeWhile (fun c => ¬ (c = ':')) = mid := by
  induction mid with
  | nil => simp [List.takeWhile_cons]
  | cons c mid' ih =>
    have hc : ¬ (c = ':') := fun h => hmid (h ▸ List.mem_cons_self c mid')
    rw [List.cons_append, List.takeWhile_cons, if_pos (by simpa using hc)]
    rw [ih (fun h => hmid (List.mem_cons_of_mem c h))]

theorem betw_cons_colon (cs' : List Char) :
    betweenFirstColons (':' :: cs')
      = if cs'.any (fun c => c = ':') then
          some (cs'.takeWhile (fun c => ¬ (c = ':')))
        else none := rfl

theorem betw_cons_other (c : Char) (cs' : List Char) (hc : ¬ (c = ':')) :
    betweenFirstColons (c :: cs') = betweenFirstColons cs' := by
  rw [betweenFirstColons, betweenFirstColons, List.dropWhile_cons,
    if_pos (by simpa using hc)]

theorem betweenFirstColons_sound (cs : List Char) :
    ∀ mid, betweenFirstColons cs = some mid →
    ∃ pre post, cs = pre ++ ':' :: (mid ++ ':' :: post) ∧ ':' ∉ pre ∧ ':' ∉ mid := by
  induction cs with
  | nil => intro mid hb; cases hb
  | cons c cs' ih =>
    intro mid hb
    by_cases hc : c = ':'
    · subst hc
      rw [betw_cons_colon] at hb
      by_cases han : cs'.any (fun c => c = ':') = true
      · rw [if_pos han] at hb
        injection hb with hb
        obtain ⟨post, heq, hmem⟩ := colonSplit_of_any cs' han
        rw [hb] at heq hmem
        refine ⟨[], post, ?_, by simp, hmem⟩
        rw [List.nil_append]
        exact congrArg (':' :: ·) heq
      · rw [if_neg han] at hb
        cases hb
    · rw [betw_cons_other c cs' hc] at hb
      obtain ⟨pre', post, heq, hpre, hmid⟩ := ih mid hb
      refine ⟨c :: pre', post, ?_, ?_, hmid⟩
      · rw [List.cons_append]
        exact congrArg (c :: ·) heq
      · intro hmem'
        rcases List.mem_cons.mp hmem' with h1 | h1
        · exact hc h1.symm
        · exact hpre h1

theorem betweenFirstColons_complete :
    ∀ (pre mid post : List Char), ':' ∉ pre → ':' ∉ mid →
    betweenFirstColons (pre ++ ':' :: (mid ++ ':' :: post)) = some mid := by
  intro pre
  induction pre with
  | nil =>
    intro mid post _ hmid
    rw [List.nil_append, betw_cons_colon,
      if_pos (by simp), takeWhile_append_colon mid post hmid]
  | cons c pre' ih =>
    intro mid post hpre hmid
    have hc : ¬ (c = ':') := fun h => hpre (h ▸ List.mem_cons_self c pre')
    rw [List.cons_append, betw_cons_other c _ hc]
    exact ih mid post (fun h => hpre (List.mem_cons_of_mem c h)) hmid

/-! ## Concrete token sequences used as witnesses -/

/-- The 17-token sequence of the repository's CollapsibleHeaders unit test:
two H6 heading blocks with emphasis-wrapped marker "text", a rule-delimited
paragraph in between. -/
def chTestSeq : List Event :=
  [ .start (.heading .h6 0), .start .emphasis, .text (.borrowed "text"),
    .end_ .emphasis, .end_ (.heading .h6 0), .start .paragraph,
    .text (.borrowed "some test text. a lil bit more."), .end_ .paragraph,
    .rule, .start .paragraph,
    .text (.borrowed "Some more text that should not be captured by the plugin."),
    .end_ .paragraph, .start (.heading .h6 0), .start .emphasis,
    .text (.borrowed "text"), .end_ .emphasis, .end_ (.heading .h6 0) ]

/-- A minimal document whose span stays open until end of document: one H6
heading with the emphasis-wrapped marker and its closing heading tag. -/
def chEndSeq : List Event :=
  [ .start (.heading .h6 0), .start .emphasis, .text (.borrowed "text"),
    .end_ .emphasis, .end_ (.heading .h6 0) ]

/-! ## Claim C7 -/

/-- Claim C7: running the pipeline orchestrator with an empty plugin list
returns a sequence equal to the input — the same tokens in the same order. -/
theorem C7_identity (events : List Event) :
    process_commonmark_tokens events [] = events := by
  have h : process_commonmark_tokens events [] = (indexed events).map Prod.snd := rfl
  rw [h, indexed]
  exact List.map_snd_zip _ _ (by rw [List.length_range])

/-! ## Claim C9 -/

/-- Claim C9: on the single text token ":+1::+1:+1:", Emoji.check_slice
matches it (range [0,1)) and Emoji.replace_slice resolves the two complete
colon pairs to the thumbs-up glyph, leaving the trailing partial run "+1:"
as literal text. -/
theorem C9_emoji_malformed :
    Emoji.check_slice [(0, Event.text (CowStr.borrowed ":+1::+1:+1:"))] = some ⟨0, 1⟩
    ∧ Emoji.replace_slice [(0, Event.text (CowStr.borrowed ":+1::+1:+1:"))]
        = [Event.text (CowStr.boxed "👍👍+1:")] := by
  constructor
  · decide
  · decide

/-! ## Claim C1 -/

/-- Claim C1, counterexample: for the Emoji plugin and the non-empty
one-token sequence [":+1:"], the scan pass collects the range [0,1), whose
total length equals (not is strictly below) the sequence length, so the
debug assertion of rewrite_collection_with fails. -/
theorem C1_counterexample :
    (check_collection_with EmojiP () (indexed [Event.text (CowStr.borrowed ":+1:")])).1
      = some [⟨0, 1⟩]
    ∧ ¬ spliceAssertion [⟨0, 1⟩] (indexed [Event.text (CowStr.borrowed ":+1:")]) := by
  constructor
  · decide
  · unfold spliceAssertion
    decide

/-- Claim C1 (amended): for the CollapsibleHeaders plugin (any
configuration) and every non-empty input, the covered length is strictly
below the sequence length, so the debug assertion holds; for the Emoji
plugin the covered length is only bounded by the sequence length (equality
is possible, so the assertion can fail). -/
theorem C1_amended (evs : List Event) (hne : evs ≠ []) :
    (∀ (level : Nat) (text : String) (ranges : List MRange),
        (check_collection_with CHP (CollapsibleHeaders.new level text) (indexed evs)).1
          = some ranges →
        spliceAssertion ranges (indexed evs))
    ∧ (∀ ranges : List MRange,
        (check_collection_with EmojiP () (indexed evs)).1 = some ranges →
        sumLens ranges ≤ (indexed evs).length) := by
  have hlenind : (indexed evs).length = evs.length := by
    rw [indexed_eq]
    exact indexedFrom_length evs 0
  have hlen1 : 1 ≤ evs.length := by
    cases evs with
    | nil => exact absurd rfl hne
    | cons a l => simp
  constructor
  · intro level text ranges hch
    obtain ⟨hi, hchain, hhi⟩ := ch_collect_chain level text evs hne ranges hch
    have hsum := hchain.sum_le
    unfold spliceAssertion
    rw [hlenind]
    omega
  · intro ranges hch
    obtain ⟨hi, hchain, hhi⟩ := em_collect_chain evs ranges hch
    have hsum := hchain.sum_le
    rw [hlenind]
    omega

theorem C1_witness :
    chTestSeq ≠ ([] : List Event)
    ∧ spliceAssertion [⟨0, 8⟩, ⟨12, 16⟩] (indexed chTestSeq)
    ∧ sumLens [⟨0, 1⟩] ≤ (indexed [Event.text (CowStr.borrowed ":+1:")]).length :=
  ⟨by decide,
   (C1_amended chTestSeq (by decide)).1 5 "text" [⟨0, 8⟩, ⟨12, 16⟩] (by decide),
   (C1_amended [Event.text (CowStr.borrowed ":+1:")] (by decide)).2 [⟨0, 1⟩] (by decide)⟩

/-! ## Claim C6 -/

/-- Claim C6: for each of the two reference plugins (freshly constructed)
and every input sequence, the ranges collected by one scan pass (windows in
order, then the final check) are pairwise disjoint and strictly ascending
in start. -/
theorem C6_nonoverlap (evs : List Event) :
    (∀ (level : Nat) (text : String) (ranges : List MRange),
        (check_collection_with CHP (CollapsibleHeaders.new level text) (indexed evs)).1
          = some ranges →
        ranges.Pairwise (fun a b => a.start < b.start ∧ (a.stop ≤ b.start ∨ b.stop ≤ a.start)))
    ∧ (∀ ranges : List MRange,
        (check_collection_with EmojiP () (indexed evs)).1 = some ranges →
        ranges.Pairwise (fun a b => a.start < b.start ∧ (a.stop ≤ b.start ∨ b.stop ≤ a.start))) := by
  constructor
  · intro level text ranges hch
    cases evs with
    | nil =>
      rw [show (check_collection_with CHP (CollapsibleHeaders.new level text)
        (indexed [])).1 = none from rfl] at hch
      cases hch
    | cons e es =>
      obtain ⟨hi, hchain, _⟩ := ch_collect_chain level text (e :: es) (by simp) ranges hch
      exact hchain.pairwise.imp (fun hab => ⟨hab.2, Or.inl hab.1⟩)
  · intro ranges hch
    obtain ⟨hi, hchain, _⟩ := em_collect_chain evs ranges hch
    exact hchain.pairwise.imp (fun hab => ⟨hab.2, Or.inl hab.1⟩)

theorem C6_witness :
    ([⟨0, 8⟩, ⟨12, 16⟩] : List MRange).Pairwise
        (fun a b => a.start < b.start ∧ (a.stop ≤ b.start ∨ b.stop ≤ a.start))
    ∧ ([⟨0, 1⟩] : List MRange).Pairwise
        (fun a b => a.start < b.start ∧ (a.stop ≤ b.start ∨ b.stop ≤ a.start)) :=
  ⟨(C6_nonoverlap chTestSeq).1 5 "text" [⟨0, 8⟩, ⟨12, 16⟩] (by decide),
   (C6_nonoverlap [Event.text (CowStr.borrowed ":+1:")]).2 [⟨0, 1⟩] (by decide)⟩

/-! ## Claim C3 -/

/-- Claim C3: evaluation at the failing input.  The scanner passes the
*position of the last token* (4, for the 5-token `chEndSeq`) to
`final_check`, so the still-open span is emitted as [0,4) — ending *at* the
last token's position and excluding the last token — where the claim (and
the repository's own unit test, which calls `final_check(input.len())` and
expects `12..17`) demands [0,5). -/
theorem C3_failing_eval :
    (check_collection_with CHP (CollapsibleHeaders.new 5 "text") (indexed chEndSeq)).1
      = some [⟨0, 4⟩]
    ∧ chEndSeq.length = 5
    ∧ ((⟨0, 4⟩ : MRange) ≠ ⟨0, 5⟩) := by
  refine ⟨by decide, by decide, by decide⟩

/-! ## Claim C2 -/

/-- Claim C2, counterexample: with the threshold configured at level 6 and a
span open (opened by the first heading+marker window), a window headed by an
H5 heading-open — a level strictly shallower than the configured threshold —
does *not* close the span: check_slice returns none and the span stays open,
because the code compares against the hardcoded `HeadingLevel::H5`
(`lvl < H5` is false for H5 itself), not against the configured level. -/
theorem C2_counterexample :
    ((CollapsibleHeaders.check_slice (CollapsibleHeaders.new 6 "text")
        [(0, .start (.heading .h6 0)), (1, .start .emphasis),
         (2, .text (.borrowed "text")), (3, .end_ .emphasis)]).2.range = some ⟨0, 3⟩)
    ∧ HeadingLevel.h5.toNat < 6
    ∧ (CollapsibleHeaders.check_slice
        (CollapsibleHeaders.check_slice (CollapsibleHeaders.new 6 "text")
          [(0, .start (.heading .h6 0)), (1, .start .emphasis),
           (2, .text (.borrowed "text")), (3, .end_ .emphasis)]).2
        [(5, .start (.heading .h5 0)), (6, .other 0), (7, .other 1), (8, .other 2)]).1
        = none
    ∧ (CollapsibleHeaders.check_slice
        (CollapsibleHeaders.check_slice (CollapsibleHeaders.new 6 "text")
          [(0, .start (.heading .h6 0)), (1, .start .emphasis),
           (2, .text (.borrowed "text")), (3, .end_ .emphasis)]).2
        [(5, .start (.heading .h5 0)), (6, .other 0), (7, .other 1), (8, .other 2)]).2.range
        = some ⟨0, 3⟩ := by
  refine ⟨by decide, by decide, by decide, by decide⟩

/-- The structural pattern of the first `check_slice` arm: heading-open,
emphasis-open, borrowed text, emphasis-close. -/
def isMarkerShape : List (Nat × Event) → Bool
  | [(_, .start (.heading _ _)), (_, .start .emphasis),
     (_, .text (.borrowed _)), (_, .end_ .emphasis)] => true
  | _ => false

/-- Claim C2 (amended): while a span is open, a window headed by a
heading-open that does not structurally match the heading+marker pattern
closes the span at the heading's position exactly when the heading's level
is numerically below 5 (the hardcoded `HeadingLevel::H5`); the configured
threshold level plays no role in this closing transition. -/
theorem C2_amended (st : CollapsibleHeaders) (r : MRange) (a : Nat)
    (lvl : HeadingLevel) (attrs : Nat) (rest : List (Nat × Event))
    (hopen : st.range = some r)
    (hshape : isMarkerShape ((a, Event.start (Tag.heading lvl attrs)) :: rest) = false) :
    (lvl.toNat < 5 →
      CollapsibleHeaders.check_slice st ((a, Event.start (Tag.heading lvl attrs)) :: rest)
        = (some ⟨r.start, a⟩, { st with range := none }))
    ∧ (5 ≤ lvl.toNat →
      CollapsibleHeaders.check_slice st ((a, Event.start (Tag.heading lvl attrs)) :: rest)
        = (none, st)) := by
  have hred : CollapsibleHeaders.check_slice st
      ((a, Event.start (Tag.heading lvl attrs)) :: rest) = arm2val st a lvl := by
    rcases rest with _ | ⟨⟨q1, f1⟩, rest1⟩
    · rfl
    rcases rest1 with _ | ⟨⟨q2, f2⟩, rest2⟩
    · -- window of length 2
      rcases f1 with t1 | t1 | s1 | s1 | _ | _ | k1 <;> try rfl
      rcases t1 with ⟨l1, a1⟩ | _ | _ | k1 <;> rfl
    rcases rest2 with _ | ⟨⟨q3, f3⟩, rest3⟩
    · -- window of length 3
      rcases f1 with t1 | t1 | s1 | s1 | _ | _ | k1 <;> try rfl
      rcases t1 with ⟨l1, a1⟩ | _ | _ | k1 <;> try rfl
      rcases f2 with t2 | t2 | s2 | s2 | _ | _ | k2 <;> try rfl
      rcases s2 with s2 | s2 | s2 <;> rfl
    rcases rest3 with _ | ⟨⟨q4, f4⟩, rest4⟩
    · -- window of length exactly 4: the marker-shape leaf contradicts hshape
      rcases f1 with t1 | t1 | s1 | s1 | _ | _ | k1 <;> try rfl
      rcases t1 with ⟨l1, a1⟩ | _ | _ | k1 <;> try rfl
      rcases f2 with t2 | t2 | s2 | s2 | _ | _ | k2 <;> try rfl
      rcases s2 with s2 | s2 | s2 <;> try rfl
      rcases f3 with t3 | t3 | s3 | s3 | _ | _ | k3 <;> try rfl
      rcases t3 with ⟨l3, a3⟩ | _ | _ | k3 <;> try rfl
      simp [isMarkerShape] at hshape
    · -- window of length at least 5
      rcases f1 with t1 | t1 | s1 | s1 | _ | _ | k1 <;> try rfl
      rcases t1 with ⟨l1, a1⟩ | _ | _ | k1 <;> try rfl
      rcases f2 with t2 | t2 | s2 | s2 | _ | _ | k2 <;> try rfl
      rcases s2 with s2 | s2 | s2 <;> try rfl
      rcases f3 with t3 | t3 | s3 | s3 | _ | _ | k3 <;> try rfl
      rcases t3 with ⟨l3, a3⟩ | _ | _ | k3 <;> rfl
  constructor
  · intro h5
    rw [hred]
    unfold arm2val
    rw [if_pos h5]
    unfold closeVal
    rw [hopen]
  · intro h5
    rw [hred]
    unfold arm2val
    rw [if_neg (by omega)]

theorem C2_witness :
    CollapsibleHeaders.check_slice ⟨some ⟨0, 3⟩, 6, "text"⟩
        [(5, .start (.heading .h4 0)), (6, .other 0), (7, .other 1), (8, .other 2)]
      = (some ⟨0, 5⟩, ⟨none, 6, "text"⟩) :=
  (C2_amended ⟨some ⟨0, 3⟩, 6, "text"⟩ ⟨0, 3⟩ 5 .h4 0
    [(6, .other 0), (7, .other 1), (8, .other 2)] rfl (by decide)).1 (by decide)

/-! ## Claim C4 -/

/-- Claim C4, counterexample: the text "a:zz: :+1:" contains a colon pair
enclosing the non-empty resolving substring "+1", yet check_slice fails on
it, because only the substring between the *first* colon and the next one
("zz", which is not a known shortcode) is ever consulted. -/
theorem C4_counterexample :
    Emoji.check_slice [(0, Event.text (CowStr.borrowed "a:zz: :+1:"))] = none
    ∧ ("a:zz: :+1:" : String) = "a:zz: " ++ ":" ++ "+1" ++ ":" ++ ""
    ∧ ("+1" : String) ≠ ""
    ∧ (get_by_shortcode "+1").isSome = true
    ∧ (get_by_shortcode "zz").isSome = false := by
  refine ⟨by decide, by decide, by decide, by decide, by decide⟩

/-- Claim C4 (amended): for the Emoji plugin on one indexed text token,
check_slice returns Some([p, p+1)) iff the substring strictly between the
*first* colon of the text and the next colon after it resolves to a known
shortcode — i.e. iff the text decomposes as `pre ++ ":" ++ mid ++ ":" ++ post`
with no colon in `pre` or `mid` and `mid` resolving (resolution of the empty
string fails, so the enclosed substring is necessarily non-empty). -/
theorem C4_amended (i : Nat) (v : CowStr) :
    Emoji.check_slice [(i, Event.text v)] = some ⟨i, i + 1⟩
      ↔ ∃ pre mid post : List Char,
          v.str.toList = pre ++ ':' :: (mid ++ ':' :: post)
          ∧ ':' ∉ pre ∧ ':' ∉ mid
          ∧ (get_by_shortcode (String.mk mid)).isSome = true := by
  have hdef : Emoji.check_slice [(i, Event.text v)]
      = ((betweenFirstColons v.str.toList).bind
          fun inner => get_by_shortcode (String.mk inner)).map
          (fun _ => (⟨i, i + 1⟩ : MRange)) := rfl
  rw [hdef]
  constructor
  · intro hsome
    rcases hb : betweenFirstColons v.str.toList with _ | mid
    · rw [hb] at hsome
      cases hsome
    · rcases hg : get_by_shortcode (String.mk mid) with _ | em
      · rw [hb] at hsome
        rw [show (some mid).bind (fun inner => get_by_shortcode (String.mk inner))
          = get_by_shortcode (String.mk mid) from rfl, hg] at hsome
        simp at hsome
      · obtain ⟨pre, post, heq, hpre, hmid⟩ := betweenFirstColons_sound _ mid hb
        exact ⟨pre, mid, post, heq, hpre, hmid, by rw [hg]; rfl⟩
  · intro ⟨pre, mid, post, heq, hpre, hmid, hres⟩
    rw [heq, betweenFirstColons_complete pre mid post hpre hmid]
    rcases hg : get_by_shortcode (String.mk mid) with _ | em
    · rw [hg] at hres
      simp at hres
    · rw [show (some mid).bind (fun inner => get_by_shortcode (String.mk inner))
        = get_by_shortcode (String.mk mid) from rfl, hg]
      rfl

theorem C4_witness :
    Emoji.check_slice [(0, Event.text (CowStr.borrowed ":+1:"))] = some ⟨0, 1⟩ :=
  (C4_amended 0 (CowStr.borrowed ":+1:")).mpr
    ⟨[], ['+', '1'], [], by decide, by decide, by decide, by decide⟩

/-! ## Claim C5 -/

/-- Claim C5: with a span open, a window matching the heading+marker pattern
(heading at the configured level or deeper, emphasis-open, the configured
marker text as a borrowed slice, emphasis-close at position b) closes the
span with the range ending at b, and the resulting state is closed — so
feeding the same occurrence again immediately opens a new span at its
heading position. -/
theorem C5_second_occurrence (st : CollapsibleHeaders) (r : MRange)
    (a p1 p2 b : Nat) (lvl : HeadingLevel) (attrs : Nat) (v : String)
    (hopen : st.range = some r)
    (hlvl : st.level ≤ lvl.toNat) (hv : v = st.text) :
    CollapsibleHeaders.check_slice st
        [(a, .start (.heading lvl attrs)), (p1, .start .emphasis),
         (p2, .text (.borrowed v)), (b, .end_ .emphasis)]
      = (some ⟨r.start, b⟩, { st with range := none })
    ∧ CollapsibleHeaders.check_slice { st with range := none }
        [(a, .start (.heading lvl attrs)), (p1, .start .emphasis),
         (p2, .text (.borrowed v)), (b, .end_ .emphasis)]
      = (none, { st with range := some ⟨a, b⟩ }) := by
  constructor
  · show arm1val st a b lvl v = _
    unfold arm1val
    rw [if_pos ⟨hlvl, hv⟩, hopen]
  · show arm1val { st with range := none } a b lvl v = _
    unfold arm1val
    rw [if_pos ⟨hlvl, hv⟩]

theorem C5_witness :
    CollapsibleHeaders.check_slice ⟨some ⟨0, 3⟩, 5, "text"⟩
        [(10, .start (.heading .h6 0)), (11, .start .emphasis),
         (12, .text (.borrowed "text")), (13, .end_ .emphasis)]
      = (some ⟨0, 13⟩, ⟨none, 5, "text"⟩)
    ∧ CollapsibleHeaders.check_slice ⟨none, 5, "text"⟩
        [(10, .start (.heading .h6 0)), (11, .start .emphasis),
         (12, .text (.borrowed "text")), (13, .end_ .emphasis)]
      = (none, ⟨some ⟨10, 13⟩, 5, "text"⟩) :=
  C5_second_occurrence ⟨some ⟨0, 3⟩, 5, "text"⟩ ⟨0, 3⟩ 10 11 12 13 .h6 0 "text"
    rfl (by decide) rfl

/-! ## Claim C8 -/

/-- A plugin wrapped with invocation counters: the state carries the number
of check_slice calls and final_check calls made through the scanner. -/
def countingPlugin {σ : Type} (P : Plugin σ) : Plugin (σ × Nat × Nat) where
  window_size := P.window_size
  check_slice := fun st w =>
    ((P.check_slice st.1 w).1, ((P.check_slice st.1 w).2, st.2.1 + 1, st.2.2))
  final_check := fun st p =>
    ((P.final_check st.1 p).1, ((P.final_check st.1 p).2, st.2.1, st.2.2 + 1))
  replace_slice := P.replace_slice

/-- Claim C8, counterexample: on the *empty* sequence, `collection.last()`
is None, so final_check is invoked zero times — not exactly once as the
claim states for every sequence shorter than the window size. -/
theorem C8_counterexample :
    (check_collection_with (countingPlugin EmojiP) (((), 0, 0)) []).2.2.2 = 0
    ∧ (check_collection_with (countingPlugin EmojiP) (((), 0, 0)) []).2.2.2 ≠ 1 := by
  refine ⟨by decide, by decide⟩

/-- Claim C8 (amended): for every plugin and every *non-empty* sequence
with fewer tokens than the window size, the scan produces no windows (hence
no check_slice calls) and final_check is invoked exactly once; on the empty
sequence neither is invoked. -/
theorem C8_amended {σ : Type} (P : Plugin σ) (st : σ) (coll : List (Nat × Event))
    (hne : coll ≠ []) (hlt : coll.length < P.window_size) :
    windows P.window_size coll = []
    ∧ (check_collection_with (countingPlugin P) (st, 0, 0) coll).2.2.1 = 0
    ∧ (check_collection_with (countingPlugin P) (st, 0, 0) coll).2.2.2 = 1 := by
  have hw : windows P.window_size coll = [] := windows_eq_nil _ _ hlt
  have hitem : ∃ item, coll.getLast? = some item := by
    cases coll with
    | nil => exact absurd rfl hne
    | cons a l => exact ⟨(a :: l).getLast (by simp), List.getLast?_eq_getLast _ _⟩
  obtain ⟨item, hitem⟩ := hitem
  have hscan : scanPass (countingPlugin P) (st, 0, 0) coll = ([], (st, 0, 0)) := by
    rw [scanPass, show (countingPlugin P).window_size = P.window_size from rfl, hw]
    rfl
  have hwithf := withFinal_last (countingPlugin P) ([], (st, 0, 0)) coll
    item.1 item.2 (by rw [hitem])
  have hstate : (withFinal (countingPlugin P) ([], (st, 0, 0)) coll).2
      = ((P.final_check st item.1).2, 0, 1) := by
    rw [hwithf]
    cases hr : ((countingPlugin P).final_check (st, 0, 0) item.1).1 with
    | none =>
      have : (countingPlugin P).final_check (st, 0, 0) item.1
          = (none, ((P.final_check st item.1).2, 0, 1)) := by
        rw [show (countingPlugin P).final_check (st, 0, 0) item.1
          = ((P.final_check st item.1).1, ((P.final_check st item.1).2, 0, 1)) from rfl] at hr ⊢
        rw [show ((P.final_check st item.1).1, ((P.final_check st item.1).2, 0, 1)).1
          = (P.final_check st item.1).1 from rfl] at hr
        rw [hr]
      rw [this]
    | some r =>
      have : (countingPlugin P).final_check (st, 0, 0) item.1
          = (some r, ((P.final_check st item.1).2, 0, 1)) := by
        rw [show (countingPlugin P).final_check (st, 0, 0) item.1
          = ((P.final_check st item.1).1, ((P.final_check st item.1).2, 0, 1)) from rfl] at hr ⊢
        rw [show ((P.final_check st item.1).1, ((P.final_check st item.1).2, 0, 1)).1
          = (P.final_check st item.1).1 from rfl] at hr
        rw [hr]
      rw [this]
  refine ⟨hw, ?_, ?_⟩
  · rw [show (check_collection_with (countingPlugin P) (st, 0, 0) coll).2
      = (withFinal (countingPlugin P) (scanPass (countingPlugin P) (st, 0, 0) coll) coll).2
      from rfl, hscan, hstate]
  · rw [show (check_collection_with (countingPlugin P) (st, 0, 0) coll).2
      = (withFinal (countingPlugin P) (scanPass (countingPlugin P) (st, 0, 0) coll) coll).2
      from rfl, hscan, hstate]

theorem C8_witness :
    windows CHP.window_size [(0, Event.rule)] = []
    ∧ (check_collection_with (countingPlugin CHP)
        (CollapsibleHeaders.new 5 "text", 0, 0) [(0, Event.rule)]).2.2.1 = 0
    ∧ (check_collection_with (countingPlugin CHP)
        (CollapsibleHeaders.new 5 "text", 0, 0) [(0, Event.rule)]).2.2.2 = 1 :=
  C8_amended CHP (CollapsibleHeaders.new 5 "text") [(0, Event.rule)]
    (by decide) (by decide)

/-! ## Claim C10 -/

end ServeMd
